import Mathlib

/-
Shallow embedding of the plotchecker review-parsing core.

Python strings are modelled as `List Char`.  The functions below are
translated from:
  - src/app.py           : parse_review_response, highlight_issues_in_text,
                           the tab1 rewrite-split display branch and the
                           category_counts aggregation loop;
  - src/utils/reviewer.py: _parse_review_response (issues component),
                           _parse_rewrite_response, extract_issues_summary;
  - src/scenario_review_tool.py : _parse_text_response.

Recursions that are not structural in Python (replace, split on a
multi-character separator) are written with an explicit fuel argument set
to the length of the scanned list, which is always sufficient; this keeps
every definition computable by kernel reduction.
-/

namespace PlotChecker

def toL (s : String) : List Char := s.data

/-- Whitespace stripped by Python's str.strip (the characters that can
occur in this development; Python strips all Unicode whitespace). -/
def isPySpace (c : Char) : Bool :=
  c = ' ' || c = '\t' || c = '\n' || c = '\r' || c = '\x0b' ||
  c = '\x0c' || c = ' ' || c = '　'

/-- Python str.strip(). -/
def stripL (s : List Char) : List Char :=
  ((s.dropWhile isPySpace).reverse.dropWhile isPySpace).reverse

/-- Python s.startswith(c) for a single character c. -/
def startsChar (c : Char) (s : List Char) : Bool :=
  match s with
  | [] => false
  | d :: _ => d = c

/-- Python s.endswith(c) for a single character c. -/
def endsChar (c : Char) (s : List Char) : Bool :=
  match s.getLast? with
  | none => false
  | some d => d = c

/-- Python line.startswith("- "). -/
def startsTwo (s : List Char) : Bool :=
  match s with
  | '-' :: ' ' :: _ => true
  | _ => false

/-- app.py line 97 / scenario_review_tool.py line 108:
line.startswith('【') and line.endswith('】'). -/
def headerLine (line : List Char) : Bool :=
  startsChar '【' line && endsChar '】' line

/-- Python line[1:-1]. -/
def interiorL (line : List Char) : List Char :=
  (line.drop 1).dropLast

/-- Python text.split('\x5cn'), accumulator form. -/
def splitLinesGo (acc : List Char) : List Char → List (List Char)
  | [] => [acc.reverse]
  | c :: rest =>
      if c = '\n' then acc.reverse :: splitLinesGo [] rest
      else splitLinesGo (c :: acc) rest

def splitLines (s : List Char) : List (List Char) := splitLinesGo [] s

/-
The issue-line regular expression, shared verbatim (up to the line
terminator) by app.py and utils/reviewer.py:
    - (.+?)：(.+?)(?:→(.+?))?$          (app.py line 101)
    - (.+?)：(.+?)(?:→(.+?))?(?:\n|$)   (reviewer.py line 176)
Both are applied with re.match to single elements of text.split('\n'),
which contain no newline, so the two terminators coincide and `.` (which
excludes newline) matches every character of the line.  The lazy groups
give:
  * group 1 = the characters before the first '：' that has at least one
    character before it and at least one character after it (the regex
    backtracks past a '：' that would leave group 1 or group 2 empty);
  * within the remainder, group 2 stops at the first '→' that has at
    least one character before it and at least one after it; if there is
    no such '→', group 2 is the whole remainder and group 3 is absent.
`scanColon` and `scanArrow` implement exactly those scans.
-/

/-- Scan for the first '：' usable as the location/issue separator. -/
def scanColon (acc : List Char) : List Char → Option (List Char × List Char)
  | [] => none
  | c :: rest =>
      if c = '：' && !acc.isEmpty && !rest.isEmpty then some (acc.reverse, rest)
      else scanColon (c :: acc) rest

/-- Scan for the first '→' usable as the issue/suggestion separator;
when none qualifies the whole text is the issue and the suggestion is
empty (regex group 3 absent, rendered ""). -/
def scanArrow (acc : List Char) : List Char → List Char × List Char
  | [] => (acc.reverse, [])
  | c :: rest =>
      if c = '→' && !acc.isEmpty && !rest.isEmpty then (acc.reverse, rest)
      else scanArrow (c :: acc) rest

/-- Match of the issue-line regex on the text after the "- " marker:
returns (location, issue, suggestion) groups, untrimmed. -/
def matchIssue (rest : List Char) : Option (List Char × List Char × List Char) :=
  match scanColon [] rest with
  | none => none
  | some (loc, tl) =>
      let p := scanArrow [] tl
      some (loc, p.1, p.2)

/-- reviewer.py line 167 category regex 【(.+?)】 applied with re.match:
succeeds iff the line starts with '【' and a '】' occurs later with at
least one character in between; the category is the (lazy, minimal)
text before the first such '】'; trailing text is ignored. -/
def scanClose (acc : List Char) : List Char → Option (List Char)
  | [] => none
  | c :: rest =>
      if c = '】' && !acc.isEmpty then some acc.reverse
      else scanClose (c :: acc) rest

def revHeaderOf (line : List Char) : Option (List Char) :=
  match line with
  | [] => none
  | c :: rest => if c = '【' then scanClose [] rest else none

/-- One review finding: the dict {'category','location','issue','suggestion'}
built by parse_review_response (app.py), the issue dicts of
_parse_review_response (reviewer.py) and the ReviewPoint dataclass of
scenario_review_tool.py all carry these four string fields. -/
structure Review where
  category : List Char
  location : List Char
  issue : List Char
  suggestion : List Char
deriving DecidableEq

/-- app.py lines 96-112: one loop iteration of parse_review_response.
State = (current_category, reviews so far). -/
def stepApp (st : List Char × List Review) (line : List Char) :
    List Char × List Review :=
  if headerLine line then (interiorL line, st.2)
  else if startsTwo line && !st.1.isEmpty then
    match matchIssue (line.drop 2) with
    | some (loc, iss, sug) =>
        (st.1, st.2 ++ [⟨st.1, stripL loc, stripL iss, stripL sug⟩])
    | none => st
  else st

/-- app.py lines 90-114: parse_review_response. -/
def parse_review_response (s : List Char) : List Review :=
  ((splitLines s).foldl stepApp ([], [])).2

/-- utils/reviewer.py lines 178-198: one loop iteration of
_parse_review_response, restricted to the state that feeds the `issues`
output (the `suggestions` list and overall_evaluation are computed from
the same data and do not influence `issues`). -/
def stepRev (st : List Char × List Review) (line : List Char) :
    List Char × List Review :=
  match revHeaderOf line with
  | some mid => (mid, st.2)
  | none =>
      if startsTwo line && !st.1.isEmpty then
        match matchIssue (line.drop 2) with
        | some (loc, iss, sug) =>
            (st.1, st.2 ++ [⟨st.1, stripL loc, stripL iss, stripL sug⟩])
        | none => st
      else st

/-- utils/reviewer.py lines 163-214: _parse_review_response, projected to
its `issues` component. -/
def reviewer_parse_review_response (s : List Char) : List Review :=
  ((splitLines s).foldl stepRev ([], [])).2

/-- scenario_review_tool.py lines 102-128: one loop iteration of
_parse_text_response.  Note: no current-category guard, plain
split('：', 1) and split('→', 1) with no non-emptiness requirements. -/
def splitOnceChar (sep : Char) : List Char → Option (List Char × List Char)
  | [] => none
  | c :: rest =>
      if c = sep then some ([], rest)
      else (splitOnceChar sep rest).map fun p => (c :: p.1, p.2)

def stepScen (st : List Char × List Review) (line : List Char) :
    List Char × List Review :=
  if headerLine line then (interiorL line, st.2)
  else if startsTwo line then
    match splitOnceChar '：' (line.drop 2) with
    | some (loc, ias) =>
        let p :=
          if ias.any (fun c => c = '→') then
            match splitOnceChar '→' ias with
            | some q => q
            | none => (ias, [])
          else (ias, [])
        (st.1, st.2 ++ [⟨st.1, stripL loc, stripL p.1, stripL p.2⟩])
    | none => st
  else st

/-- scenario_review_tool.py _parse_text_response (records as Review). -/
def scenario_parse_text_response (s : List Char) : List Review :=
  ((splitLines s).foldl stepScen ([], [])).2

/-- Python sub in s (substring containment) via prefix test. -/
def startsSeq : List Char → List Char → Bool
  | [], _ => true
  | _ :: _, [] => false
  | a :: as_, b :: bs => a = b && startsSeq as_ bs

def occursSeq (pat : List Char) : List Char → Bool
  | [] => startsSeq pat []
  | c :: rest => startsSeq pat (c :: rest) || occursSeq pat rest

/-- Split at the first occurrence of pat: some (before, after) with the
occurrence itself removed; none when pat does not occur. -/
def splitFirstSeq (pat : List Char) : List Char → Option (List Char × List Char)
  | [] => if startsSeq pat [] then some ([], []) else none
  | c :: rest =>
      if startsSeq pat (c :: rest) then
        some ([], List.drop pat.length (c :: rest))
      else (splitFirstSeq pat rest).map fun p => (c :: p.1, p.2)

/-- Python str.replace(old, new) for non-empty old: replace every
(left-to-right, non-overlapping) occurrence; fuel = length of the
scanned list, which never runs out. -/
def replGo (old new : List Char) : Nat → List Char → List Char
  | _, [] => []
  | 0, s => s
  | Nat.succ f, c :: rest =>
      if startsSeq old (c :: rest) then
        new ++ replGo old new f (List.drop old.length (c :: rest))
      else c :: replGo old new f rest

/-- Python str.replace(old, new); the empty-old case mirrors Python's
insertion of new before every character and at the end. -/
def replaceAll (old new s : List Char) : List Char :=
  if old.isEmpty then new ++ s.foldr (fun c acc => c :: (new ++ acc)) []
  else replGo old new s.length s

/-- Python str.split(sep) for non-empty sep (all parts); fuel as above. -/
def pySplitGo (sep : List Char) : Nat → List Char → List (List Char)
  | 0, s => [s]
  | Nat.succ f, s =>
      match splitFirstSeq sep s with
      | none => [s]
      | some (pre, post) => pre :: pySplitGo sep f post

def pySplit (sep s : List Char) : List (List Char) :=
  pySplitGo sep s.length s

/-- app.py line 124: the wrapped/marked version of a location. -/
def wrapSpan (loc : List Char) : List Char :=
  toL "<span class=\"highlighted-text\">" ++ loc ++ toL "</span>"

/-- app.py lines 116-129: highlight_issues_in_text.  The working copy is
mutated record by record; `location in highlighted_content` guards a
str.replace with no count argument. -/
def highlight_issues_in_text (content : List Char) (reviews : List Review) :
    List Char :=
  reviews.foldl
    (fun h r =>
      if occursSeq r.location h then replaceAll r.location (wrapSpan r.location) h
      else h)
    content

def rwMarker : List Char := toL "【リライト後】"
def chMarker : List Char := toL "【変更点】"

/-- utils/reviewer.py line 227: the fixed sentinel for a missing changes
section. -/
def noChangesSentinel : List Char := toL "変更点のサマリーは提供されていません。"

/-- utils/reviewer.py lines 216-228: _parse_rewrite_response; the tab1
final-rewrite branch of app.py (lines 420-423) performs the identical
split/replace/strip computation on its displayed result. -/
def parse_rewrite_response (s : List Char) : List Char × List Char :=
  if occursSeq rwMarker s && occursSeq chMarker s then
    let parts := pySplit chMarker s
    let rewritten := stripL (replaceAll rwMarker [] (parts.headD []))
    let changes :=
      match parts with
      | _ :: p1 :: _ => stripL p1
      | _ => []
    (rewritten, changes)
  else (stripL s, noChangesSentinel)

/-- utils/reviewer.py lines 144-148: one iteration of the summary loop,
emulating Python dict insertion-order update
summary[category] = summary.get(category, 0) + 1.  Every record carries
a category field, so the .get("category", "その他") default of the
source never fires for records of this model. -/
def bumpCat (summary : List (List Char × Nat)) (cat : List Char) :
    List (List Char × Nat) :=
  if summary.any (fun p => p.1 = cat) then
    summary.map (fun p => if p.1 = cat then (p.1, p.2 + 1) else p)
  else summary ++ [(cat, 1)]

/-- utils/reviewer.py lines 134-148: extract_issues_summary; the
category_counts loop of app.py lines 465-468 is the same computation. -/
def extract_issues_summary (issues : List Review) : List (List Char × Nat) :=
  issues.foldl (fun summ r => bumpCat summ r.category) []

def sumCounts (summ : List (List Char × Nat)) : Nat :=
  (summ.map Prod.snd).sum

/-- Spec-side: the part of s before the first occurrence of sep (whole s
when sep does not occur). -/
def firstPartSpec (sep s : List Char) : List Char :=
  match splitFirstSeq sep s with
  | none => s
  | some (pre, _) => pre

/-- Spec-side: the part of s after the first occurrence of sep (empty
when sep does not occur). -/
def afterFirstSpec (sep s : List Char) : List Char :=
  match splitFirstSeq sep s with
  | none => []
  | some (_, post) => post

/-- Soundness predicate for an emitted record: it carries a non-empty
category and its issue field is the strip of a non-empty matched
segment. -/
def RecordOK (r : Review) : Prop :=
  r.category ≠ [] ∧ ∃ t, t ≠ [] ∧ r.issue = stripL t

/-- A line that begins with '【' is a fully bracket-delimited header:
it also ends with '】' and its interior is non-empty and free of '】'. -/
def WellHeaders (line : List Char) : Prop :=
  headerLine line = true ∧ interiorL line ≠ [] ∧ ∀ c ∈ interiorL line, c ≠ '】'

instance (line : List Char) : Decidable (WellHeaders line) := by
  unfold WellHeaders
  infer_instance

end PlotChecker

namespace PlotChecker

lemma ne_nil_of_isEmpty_false {α : Type} {l : List α} (h : l.isEmpty = false) :
    l ≠ [] := by
  cases l <;> simp_all [List.isEmpty]

lemma scanColon_tail_ne :
    ∀ (s acc loc tl : List Char), scanColon acc s = some (loc, tl) → tl ≠ [] := by
  intro s
  induction s with
  | nil => intro acc loc tl h; simp [scanColon] at h
  | cons c rest ih =>
      intro acc loc tl h
      by_cases hc : (c = '：' && !acc.isEmpty && !rest.isEmpty) = true
      · rw [scanColon, if_pos hc] at h
        obtain ⟨h1, h2⟩ := Prod.mk.injEq _ _ _ _ ▸ Option.some.inj h
        subst h2
        simp only [Bool.and_eq_true, Bool.not_eq_true'] at hc
        exact ne_nil_of_isEmpty_false hc.2
      · rw [scanColon, if_neg hc] at h
        exact ih _ _ _ h

lemma scanArrow_fst_ne :
    ∀ (s acc : List Char), acc ≠ [] ∨ s ≠ [] → (scanArrow acc s).1 ≠ [] := by
  intro s
  induction s with
  | nil =>
      intro acc h
      rcases h with h | h
      · simpa [scanArrow] using h
      · exact absurd rfl h
  | cons c rest ih =>
      intro acc _
      by_cases hc : (c = '→' && !acc.isEmpty && !rest.isEmpty) = true
      · rw [scanArrow, if_pos hc]
        simp only [Bool.and_eq_true, Bool.not_eq_true'] at hc
        simpa using ne_nil_of_isEmpty_false hc.1.2
      · rw [scanArrow, if_neg hc]
        exact ih (c :: acc) (Or.inl (by simp))

lemma matchIssue_issue_ne :
    ∀ (rest loc iss sug : List Char),
      matchIssue rest = some (loc, iss, sug) → iss ≠ [] := by
  intro rest loc iss sug h
  unfold matchIssue at h
  cases hsc : scanColon [] rest with
  | none => rw [hsc] at h; exact absurd h (by simp)
  | some p =>
      rw [hsc] at h
      obtain ⟨l, tl⟩ := p
      simp only [Option.some.injEq, Prod.mk.injEq] at h
      obtain ⟨_, h2, _⟩ := h
      rw [← h2]
      exact scanArrow_fst_ne tl [] (Or.inr (scanColon_tail_ne rest [] l tl hsc))

lemma stepApp_records :
    ∀ (st : List Char × List Review) (line : List Char) (r : Review),
      r ∈ (stepApp st line).2 → r ∈ st.2 ∨ RecordOK r := by
  intro st line r h
  by_cases hh : headerLine line = true
  · rw [stepApp, if_pos hh] at h; exact Or.inl h
  · rw [stepApp, if_neg hh] at h
    by_cases hg : (startsTwo line && !st.1.isEmpty) = true
    · rw [if_pos hg] at h
      cases hm : matchIssue (line.drop 2) with
      | none => rw [hm] at h; exact Or.inl h
      | some p =>
          obtain ⟨loc, iss, sug⟩ := p
          rw [hm] at h
          simp only [List.mem_append, List.mem_singleton] at h
          rcases h with h | h
          · exact Or.inl h
          · subst h
            refine Or.inr ⟨?_, iss, matchIssue_issue_ne _ _ _ _ hm, rfl⟩
            simp only [Bool.and_eq_true, Bool.not_eq_true'] at hg
            exact ne_nil_of_isEmpty_false hg.2
    · rw [if_neg hg] at h; exact Or.inl h

lemma stepRev_records :
    ∀ (st : List Char × List Review) (line : List Char) (r : Review),
      r ∈ (stepRev st line).2 → r ∈ st.2 ∨ RecordOK r := by
  intro st line r h
  cases hr : revHeaderOf line with
  | some mid => rw [stepRev, hr] at h; exact Or.inl h
  | none =>
      rw [stepRev, hr] at h
      by_cases hg : (startsTwo line && !st.1.isEmpty) = true
      · rw [if_pos hg] at h
        cases hm : matchIssue (line.drop 2) with
        | none => rw [hm] at h; exact Or.inl h
        | some p =>
            obtain ⟨loc, iss, sug⟩ := p
            rw [hm] at h
            simp only [List.mem_append, List.mem_singleton] at h
            rcases h with h | h
            · exact Or.inl h
            · subst h
              refine Or.inr ⟨?_, iss, matchIssue_issue_ne _ _ _ _ hm, rfl⟩
              simp only [Bool.and_eq_true, Bool.not_eq_true'] at hg
              exact ne_nil_of_isEmpty_false hg.2
      · rw [if_neg hg] at h; exact Or.inl h

lemma foldl_records_inv {σ : Type} (step : σ → List Char → σ) (proj : σ → List Review)
    (hstep : ∀ st line r, r ∈ proj (step st line) → r ∈ proj st ∨ RecordOK r) :
    ∀ (lines : List (List Char)) (st : σ) (r : Review),
      r ∈ proj (lines.foldl step st) → r ∈ proj st ∨ RecordOK r := by
  intro lines
  induction lines with
  | nil => intro st r h; exact Or.inl h
  | cons l ls ih =>
      intro st r h
      rcases ih (step st l) r h with h' | h'
      · exact hstep st l r h'
      · exact Or.inr h'

lemma app_records_ok :
    ∀ (s : List Char) (r : Review), r ∈ parse_review_response s → RecordOK r := by
  intro s r h
  rcases foldl_records_inv stepApp Prod.snd stepApp_records (splitLines s) ([], []) r h with h' | h'
  · exact absurd h' (by simp)
  · exact h'

lemma rev_records_ok :
    ∀ (s : List Char) (r : Review), r ∈ reviewer_parse_review_response s → RecordOK r := by
  intro s r h
  rcases foldl_records_inv stepRev Prod.snd stepRev_records (splitLines s) ([], []) r h with h' | h'
  · exact absurd h' (by simp)
  · exact h'

/-- C3: parse_review_response applied to the end-to-end scenario input
【設定の矛盾】/義父-line/【リアリティ】/慰謝料-line returns exactly the two
expected records, in order. -/
theorem C3_extractor_end_to_end :
    parse_review_response
        (toL "【設定の矛盾】\n- 義父：死亡後に登場→矛盾を削除\n【リアリティ】\n- 慰謝料：高すぎる\n") =
      [⟨toL "設定の矛盾", toL "義父", toL "死亡後に登場", toL "矛盾を削除"⟩,
       ⟨toL "リアリティ", toL "慰謝料", toL "高すぎる", []⟩] := by
  rfl

/-- C5: every record emitted by parse_review_response (app.py) or by
_parse_review_response (reviewer.py) carries a non-empty current
category, so an issue-formatted line appearing before any category
header yields no record. -/
theorem C5_orphan_drop :
    ∀ (s : List Char) (r : Review),
      (r ∈ parse_review_response s → r.category ≠ []) ∧
      (r ∈ reviewer_parse_review_response s → r.category ≠ []) := by
  intro s r
  exact ⟨fun h => (app_records_ok s r h).1, fun h => (rev_records_ok s r h).1⟩

theorem C5_orphan_drop_witness :
    (⟨toL "A", toL "a", toL "b", []⟩ : Review).category ≠ [] :=
  (C5_orphan_drop (toL "【A】\n- a：b") ⟨toL "A", toL "a", toL "b", []⟩).1 (by decide)

/-- C6 counterexample: the issue-line regex accepts a line whose text
after the full-width colon is a single space, and the .strip() applied
to the matched group then yields a record whose issue field is empty —
contradicting the claim that every emitted record has a non-empty
issue. -/
theorem C6_counterexample :
    parse_review_response (toL "【A】\n- x： ") = [⟨toL "A", toL "x", [], []⟩] ∧
      (⟨toL "A", toL "x", [], []⟩ : Review).issue = [] :=
  ⟨rfl, rfl⟩

/-- C6 (amended): a record's issue field is the whitespace-strip of a
non-empty matched segment — the regex group cannot be empty, but the
stripped field stored in the record may be (when the matched segment is
all whitespace). -/
theorem C6_issue_from_nonempty_match :
    ∀ (s : List Char) (r : Review),
      r ∈ parse_review_response s ∨ r ∈ reviewer_parse_review_response s →
      ∃ t, t ≠ [] ∧ r.issue = stripL t := by
  intro s r h
  rcases h with h | h
  · exact (app_records_ok s r h).2
  · exact (rev_records_ok s r h).2

theorem C6_issue_from_nonempty_match_witness :
    ∃ t, t ≠ [] ∧ (⟨toL "A", toL "x", [], []⟩ : Review).issue = stripL t :=
  C6_issue_from_nonempty_match (toL "【A】\n- x： ") ⟨toL "A", toL "x", [], []⟩
    (Or.inl (by decide))

lemma startsSeq_nil_of_ne {pat : List Char} (h : pat ≠ []) :
    startsSeq pat [] = false := by
  cases pat with
  | nil => exact absurd rfl h
  | cons a as => rfl

lemma splitFirstSeq_length {pat : List Char} (hp : pat ≠ []) :
    ∀ (s pre post : List Char),
      splitFirstSeq pat s = some (pre, post) → post.length < s.length := by
  intro s
  induction s with
  | nil =>
      intro pre post h
      rw [splitFirstSeq, startsSeq_nil_of_ne hp] at h
      exact absurd h (by simp)
  | cons c rest ih =>
      intro pre post h
      by_cases hs : startsSeq pat (c :: rest) = true
      · rw [splitFirstSeq, if_pos hs] at h
        obtain ⟨h1, h2⟩ := Prod.mk.injEq _ _ _ _ ▸ Option.some.inj h
        subst h2
        rw [List.length_drop]
        exact Nat.sub_lt (by simp) (List.length_pos.mpr hp)
      · rw [splitFirstSeq, if_neg hs] at h
        cases hsp : splitFirstSeq pat rest with
        | none => rw [hsp] at h; exact absurd h (by simp)
        | some p =>
            rw [hsp] at h
            simp only [Option.map_some', Option.some.injEq, Prod.mk.injEq] at h
            obtain ⟨_, h2⟩ := h
            subst h2
            exact Nat.lt_trans (ih p.1 p.2 (by rw [hsp])) (by simp)

lemma replGo_fuel {old : List Char} (ho : old ≠ []) (new : List Char) :
    ∀ (f g : Nat) (s : List Char), s.length ≤ f → s.length ≤ g →
      replGo old new f s = replGo old new g s := by
  intro f
  induction f with
  | zero =>
      intro g s h1 _
      have : s = [] := List.eq_nil_of_length_eq_zero (Nat.le_zero.mp h1)
      subst this
      simp [replGo]
  | succ f ih =>
      intro g s h1 h2
      cases s with
      | nil => simp [replGo]
      | cons c rest =>
          cases g with
          | zero => exact absurd h2 (by simp)
          | succ g' =>
              have hlen : rest.length ≤ f := Nat.succ_le_succ_iff.mp h1
              have hlen' : rest.length ≤ g' := Nat.succ_le_succ_iff.mp h2
              have hdrop : (List.drop old.length (c :: rest)).length ≤ rest.length := by
                rw [List.length_drop]
                have : 1 ≤ old.length := List.length_pos.mpr ho
                simp only [List.length_cons]
                omega
              by_cases hs : startsSeq old (c :: rest) = true
              · rw [replGo, replGo, if_pos hs, if_pos hs]
                rw [ih g' (List.drop old.length (c :: rest)) (Nat.le_trans hdrop hlen)
                      (Nat.le_trans hdrop hlen')]
              · rw [replGo, replGo, if_neg hs, if_neg hs, ih g' rest hlen hlen']

lemma replaceAll_isEmpty_ne {old : List Char} (ho : old ≠ []) (new s : List Char) :
    replaceAll old new s = replGo old new s.length s := by
  rw [replaceAll, if_neg (by simpa [List.isEmpty_iff] using ho)]

lemma replaceAll_of_split {old : List Char} (ho : old ≠ []) (new : List Char) :
    ∀ (s pre post : List Char), splitFirstSeq old s = some (pre, post) →
      replaceAll old new s = pre ++ new ++ replaceAll old new post := by
  intro s
  induction s with
  | nil =>
      intro pre post h
      rw [splitFirstSeq, startsSeq_nil_of_ne ho] at h
      exact absurd h (by simp)
  | cons c rest ih =>
      intro pre post h
      rw [replaceAll_isEmpty_ne ho]
      by_cases hs : startsSeq old (c :: rest) = true
      · rw [splitFirstSeq, if_pos hs] at h
        obtain ⟨h1, h2⟩ := Prod.mk.injEq _ _ _ _ ▸ Option.some.inj h
        subst h1; subst h2
        have hdrop : (List.drop old.length (c :: rest)).length ≤ rest.length := by
          rw [List.length_drop]
          have : 1 ≤ old.length := List.length_pos.mpr ho
          simp only [List.length_cons]
          omega
        rw [List.length_cons, replGo, if_pos hs,
            replGo_fuel ho new rest.length (List.drop old.length (c :: rest)).length
              (List.drop old.length (c :: rest)) hdrop (Nat.le_refl _),
            ← replaceAll_isEmpty_ne ho]
        simp
      · rw [splitFirstSeq, if_neg hs] at h
        cases hsp : splitFirstSeq old rest with
        | none => rw [hsp] at h; exact absurd h (by simp)
        | some p =>
            rw [hsp] at h
            simp only [Option.map_some', Option.some.injEq, Prod.mk.injEq] at h
            obtain ⟨h1, h2⟩ := h
            subst h1; subst h2
            rw [List.length_cons, replGo, if_neg hs,
                replGo_fuel ho new rest.length rest.length rest (Nat.le_refl _)
                  (Nat.le_refl _),
                ← replaceAll_isEmpty_ne ho, ih p.1 p.2 (by rw [hsp])]
            simp

lemma replaceAll_of_none :
    ∀ (old new s : List Char), splitFirstSeq old s = none → replaceAll old new s = s := by
  intro old new s h
  have ho : old ≠ [] := by
    intro h'
    subst h'
    cases s <;> simp [splitFirstSeq, startsSeq] at h
  induction s with
  | nil => rw [replaceAll_isEmpty_ne ho]; rfl
  | cons c rest ih =>
      by_cases hs : startsSeq old (c :: rest) = true
      · rw [splitFirstSeq, if_pos hs] at h; exact absurd h (by simp)
      · rw [splitFirstSeq, if_neg hs] at h
        cases hsp : splitFirstSeq old rest with
        | some p => rw [hsp] at h; exact absurd h (by simp)
        | none =>
            rw [replaceAll_isEmpty_ne ho, List.length_cons, replGo, if_neg hs,
                replGo_fuel ho new rest.length rest.length rest (Nat.le_refl _)
                  (Nat.le_refl _),
                ← replaceAll_isEmpty_ne ho, ih hsp]

lemma occursSeq_isSome :
    ∀ (pat s : List Char), occursSeq pat s = true ↔ (splitFirstSeq pat s).isSome := by
  intro pat s
  induction s with
  | nil =>
      by_cases h : startsSeq pat [] = true <;> simp [occursSeq, splitFirstSeq, h]
  | cons c rest ih =>
      by_cases h : startsSeq pat (c :: rest) = true
      · simp [occursSeq, splitFirstSeq, h]
      · cases hsp : splitFirstSeq pat rest with
        | none => simp [occursSeq, splitFirstSeq, h, hsp] at ih ⊢; exact ih
        | some p => simp [occursSeq, splitFirstSeq, h, hsp] at ih ⊢; exact ih

lemma pySplitGo_headD {sep : List Char} (hs : sep ≠ []) :
    ∀ (f : Nat) (s : List Char), s.length ≤ f →
      (pySplitGo sep f s).headD [] = firstPartSpec sep s := by
  intro f s h
  cases f with
  | zero =>
      have : s = [] := List.eq_nil_of_length_eq_zero (Nat.le_zero.mp h)
      subst this
      rw [pySplitGo, firstPartSpec, splitFirstSeq, startsSeq_nil_of_ne hs]
      rfl
  | succ f =>
      rw [pySplitGo, firstPartSpec]
      cases hsp : splitFirstSeq sep s with
      | none => rfl
      | some p => rfl

lemma pySplitGo_ne_nil : ∀ (sep : List Char) (f : Nat) (s : List Char),
    pySplitGo sep f s ≠ [] := by
  intro sep f s
  cases f with
  | zero => simp [pySplitGo]
  | succ f =>
      rw [pySplitGo]
      cases hsp : splitFirstSeq sep s with
      | none => simp
      | some p => simp

lemma pySplitGo_succ (sep : List Char) (f : Nat) (s : List Char) :
    pySplitGo sep (f + 1) s =
      match splitFirstSeq sep s with
      | none => [s]
      | some (pre, post) => pre :: pySplitGo sep f post := rfl

lemma parse_rewrite_pos {s : List Char} (h1 : occursSeq rwMarker s = true)
    (h2 : occursSeq chMarker s = true) :
    parse_rewrite_response s =
      (stripL (replaceAll rwMarker [] ((pySplit chMarker s).headD [])),
       match pySplit chMarker s with
       | _ :: p1 :: _ => stripL p1
       | _ => []) := by
  unfold parse_rewrite_response
  rw [h1, h2]
  rfl

/-- C1 counterexample: with a single record whose location "ab" occurs
twice in the content "ab ab", highlight_issues_in_text wraps BOTH
occurrences (str.replace with no count), not only the first as the
claim states. -/
theorem C1_counterexample :
    highlight_issues_in_text (toL "ab ab") [⟨[], toL "ab", [], []⟩] =
      toL "<span class=\"highlighted-text\">ab</span> <span class=\"highlighted-text\">ab</span>" ∧
    toL "<span class=\"highlighted-text\">ab</span> <span class=\"highlighted-text\">ab</span>" ≠
      toL "<span class=\"highlighted-text\">ab</span> ab" :=
  ⟨rfl, by decide⟩

/-- C1 (amended): the Highlighter processes the records in sequence
order on a single mutating working copy; for each record whose location
occurs in the current copy it replaces EVERY left-to-right
non-overlapping occurrence with the wrapped version (records whose
location does not occur leave the copy unchanged).  The second and
third conjuncts characterize replaceAll as the recursive
replace-each-occurrence transformation. -/
theorem C1_highlight_replaces_every_occurrence :
    ∀ (content : List Char) (r : Review) (rs : List Review),
      (highlight_issues_in_text content (r :: rs) =
        highlight_issues_in_text
          (if occursSeq r.location content = true then
            replaceAll r.location (wrapSpan r.location) content
          else content) rs) ∧
      (∀ old new s pre post, old ≠ [] → splitFirstSeq old s = some (pre, post) →
        replaceAll old new s = pre ++ new ++ replaceAll old new post) ∧
      (∀ old new s, splitFirstSeq old s = none → replaceAll old new s = s) := by
  intro content r rs
  refine ⟨rfl, ?_, ?_⟩
  · intro old new s pre post ho h
    exact replaceAll_of_split ho new s pre post h
  · intro old new s h
    exact replaceAll_of_none old new s h

theorem C1_highlight_replaces_every_occurrence_witness :
    highlight_issues_in_text (toL "ab ab") [⟨[], toL "ab", [], []⟩] =
      highlight_issues_in_text
        (if occursSeq (toL "ab") (toL "ab ab") = true then
          replaceAll (toL "ab") (wrapSpan (toL "ab")) (toL "ab ab")
        else toL "ab ab") [] ∧
    replaceAll (toL "ab") (toL "X") (toL "ab ab") =
      [] ++ toL "X" ++ replaceAll (toL "ab") (toL "X") (toL " ab") :=
  ⟨(C1_highlight_replaces_every_occurrence (toL "ab ab") ⟨[], toL "ab", [], []⟩ []).1,
   (C1_highlight_replaces_every_occurrence (toL "ab ab") ⟨[], toL "ab", [], []⟩ []).2.1
     (toL "ab") (toL "X") (toL "ab ab") [] (toL " ab") (by decide) (by decide)⟩

/-- C2 counterexample: when the changes marker occurs twice, str.split
removes ALL separator occurrences, so changes is only the segment
between the first and second marker ("a"), not the entire text after
the first marker ("a【変更点】b") as the claim states. -/
theorem C2_counterexample :
    (parse_rewrite_response (toL "【リライト後】d【変更点】a【変更点】b")).2 = toL "a" ∧
      toL "a" ≠ toL "a【変更点】b" :=
  ⟨rfl, by decide⟩

/-- C2 (amended): for input containing both markers, changes equals the
segment strictly between the first and second occurrences of the
changes marker (the whole remainder when the marker occurs only once),
trimmed of leading/trailing whitespace. -/
theorem C2_changes_between_first_and_second_marker :
    ∀ s : List Char, occursSeq rwMarker s = true → occursSeq chMarker s = true →
      (parse_rewrite_response s).2 =
        stripL (firstPartSpec chMarker (afterFirstSpec chMarker s)) := by
  intro s h1 h2
  have hch : chMarker ≠ [] := by decide
  obtain ⟨p, hsp⟩ := Option.isSome_iff_exists.mp ((occursSeq_isSome chMarker s).mp h2)
  obtain ⟨pre, post⟩ := p
  have hlen := splitFirstSeq_length hch s pre post hsp
  rw [parse_rewrite_pos h1 h2]
  show (match pySplit chMarker s with
        | _ :: p1 :: _ => stripL p1
        | _ => []) = _
  cases hsl : s.length with
  | zero => rw [hsl] at hlen; exact absurd hlen (by simp)
  | succ n =>
      have hle : post.length ≤ n := by
        rw [hsl] at hlen
        exact Nat.lt_succ_iff.mp hlen
      obtain ⟨q, qs, hq⟩ :=
        List.exists_cons_of_ne_nil (pySplitGo_ne_nil chMarker n post)
      have hqv : q = firstPartSpec chMarker post := by
        rw [← pySplitGo_headD hch n post hle, hq]
        rfl
      have hafter : afterFirstSpec chMarker s = post := by
        unfold afterFirstSpec
        rw [hsp]
      rw [pySplit, hsl, pySplitGo_succ, hsp]
      change (match pre :: pySplitGo chMarker n post with
              | _ :: p1 :: _ => stripL p1
              | _ => []) = _
      rw [hq, hafter, ← hqv]

theorem C2_changes_between_first_and_second_marker_witness :
    (parse_rewrite_response (toL "【リライト後】d【変更点】c")).2 =
      stripL (firstPartSpec chMarker
        (afterFirstSpec chMarker (toL "【リライト後】d【変更点】c"))) :=
  C2_changes_between_first_and_second_marker (toL "【リライト後】d【変更点】c")
    (by decide) (by decide)

/-- C7 counterexample: str.replace removes ALL occurrences of the
rewritten-section marker from the before-part, so the document for an
input with two rewritten-section markers is "ab", not "a【リライト後】b"
as the claim (first occurrence only) states. -/
theorem C7_counterexample :
    (parse_rewrite_response (toL "【リライト後】a【リライト後】b【変更点】c")).1 = toL "ab" ∧
      toL "ab" ≠ toL "a【リライト後】b" :=
  ⟨rfl, by decide⟩

/-- C7 (amended): for input containing both markers, document equals the
part before the first changes marker with EVERY occurrence of the
rewritten-section marker removed, trimmed of leading/trailing
whitespace. -/
theorem C7_document_removes_every_marker :
    ∀ s : List Char, occursSeq rwMarker s = true → occursSeq chMarker s = true →
      (parse_rewrite_response s).1 =
        stripL (replaceAll rwMarker [] (firstPartSpec chMarker s)) := by
  intro s h1 h2
  rw [parse_rewrite_pos h1 h2]
  show stripL (replaceAll rwMarker [] ((pySplit chMarker s).headD [])) = _
  rw [pySplit, pySplitGo_headD (by decide) s.length s (Nat.le_refl _)]

theorem C7_document_removes_every_marker_witness :
    (parse_rewrite_response (toL "【リライト後】a【リライト後】b【変更点】c")).1 =
      stripL (replaceAll rwMarker []
        (firstPartSpec chMarker (toL "【リライト後】a【リライト後】b【変更点】c"))) :=
  C7_document_removes_every_marker (toL "【リライト後】a【リライト後】b【変更点】c")
    (by decide) (by decide)

/-- C8: when at least one of the two markers is absent, the Rewrite
Splitter returns (whole input stripped, fixed sentinel); being a total
Lean function, it returns a populated result for every input string. -/
theorem C8_fallback_on_missing_marker :
    ∀ s : List Char, (occursSeq rwMarker s && occursSeq chMarker s) = false →
      parse_rewrite_response s = (stripL s, noChangesSentinel) := by
  intro s h
  unfold parse_rewrite_response
  rw [h]
  rfl

theorem C8_fallback_on_missing_marker_witness :
    parse_rewrite_response (toL "hello world") =
      (stripL (toL "hello world"), noChangesSentinel) :=
  C8_fallback_on_missing_marker (toL "hello world") (by decide)

/-- C4: the header test of app.py (and of scenario_review_tool.py, which
uses the identical test) treats a line as a category header exactly when
it starts with 【 and ends with 】: when it does, the category becomes
the text strictly between the glyphs and no record is added; otherwise
the current category is unchanged. -/
theorem C4_header_iff_fully_bracketed :
    ∀ (cat : List Char) (acc : List Review) (line : List Char),
      (headerLine line = true → stepApp (cat, acc) line = (interiorL line, acc)) ∧
      (headerLine line = false → (stepApp (cat, acc) line).1 = cat) ∧
      (headerLine line = true → stepScen (cat, acc) line = (interiorL line, acc)) ∧
      (headerLine line = false → (stepScen (cat, acc) line).1 = cat) := by
  intro cat acc line
  refine ⟨?_, ?_, ?_, ?_⟩
  · intro h
    rw [stepApp, if_pos h]
  · intro h
    rw [stepApp, if_neg (by simp [h])]
    split
    · split <;> rfl
    · rfl
  · intro h
    rw [stepScen, if_pos h]
  · intro h
    rw [stepScen, if_neg (by simp [h])]
    split
    · split <;> rfl
    · rfl

theorem C4_header_iff_fully_bracketed_witness :
    stepApp ([], []) (toL "【A】") = (toL "A", []) ∧
      (stepApp ([], []) (toL "【A】x")).1 = [] :=
  ⟨(C4_header_iff_fully_bracketed [] [] (toL "【A】")).1 (by decide),
   (C4_header_iff_fully_bracketed [] [] (toL "【A】x")).2.1 (by decide)⟩

/-- C4 counterexample: _parse_review_response (reviewer.py) treats the
line 【A】x — which starts with 【 but does not end with 】 — as a
category header (its regex ignores trailing text), so the following
issue line yields a record with category "A"; the claim's
if-and-only-if characterization is false for this implementation. -/
theorem C4_counterexample :
    headerLine (toL "【A】x") = false ∧
      reviewer_parse_review_response (toL "【A】x\n- a：b") =
        [⟨toL "A", toL "a", toL "b", []⟩] :=
  ⟨rfl, rfl⟩

lemma headerLine_decomp (line : List Char) (h : headerLine line = true) :
    ∃ mid, line = '【' :: (mid ++ ['】']) ∧ interiorL line = mid := by
  rw [headerLine, Bool.and_eq_true] at h
  obtain ⟨hs, he⟩ := h
  cases line with
  | nil => simp [startsChar] at hs
  | cons c rest =>
      have hc : c = '【' := by simpa [startsChar] using hs
      subst hc
      cases rest with
      | nil => exact absurd he (by decide)
      | cons r rs =>
          have hne : (r :: rs) ≠ [] := by simp
          have hlq : ('【' :: r :: rs).getLast? = some ((r :: rs).getLast hne) := by
            rw [List.getLast?_cons_cons, List.getLast?_eq_getLast (r :: rs) hne]
          rw [endsChar, hlq] at he
          have hlast : (r :: rs).getLast hne = '】' := by simpa using he
          have hdl := List.dropLast_append_getLast hne
          rw [hlast] at hdl
          refine ⟨(r :: rs).dropLast, ?_, rfl⟩
          rw [hdl]

lemma scanClose_on_free :
    ∀ (mid acc rest : List Char), (∀ c ∈ mid, c ≠ '】') → (acc ≠ [] ∨ mid ≠ []) →
      scanClose acc (mid ++ '】' :: rest) = some (acc.reverse ++ mid) := by
  intro mid
  induction mid with
  | nil =>
      intro acc rest _ hne
      have hacc : acc ≠ [] := by
        rcases hne with h | h
        · exact h
        · exact absurd rfl h
      cases acc with
      | nil => exact absurd rfl hacc
      | cons a as =>
          show scanClose (a :: as) ('】' :: rest) = _
          rw [scanClose, if_pos (by simp)]
          simp
  | cons m ms ih =>
      intro acc rest h hne
      have hm : m ≠ '】' := h m (by simp)
      show scanClose acc (m :: (ms ++ '】' :: rest)) = _
      rw [scanClose, if_neg (by simp [hm]),
          ih (m :: acc) rest (fun c hc => h c (by simp [hc])) (Or.inl (by simp))]
      simp

lemma revHeaderOf_not_bracket {line : List Char} (h : startsChar '【' line = false) :
    revHeaderOf line = none := by
  cases line with
  | nil => rfl
  | cons c rest =>
      have hc : ¬(c = '【') := by simpa [startsChar] using h
      rw [revHeaderOf, if_neg hc]

lemma stepApp_eq_stepRev (st : List Char × List Review) (line : List Char)
    (h : startsChar '【' line = true → WellHeaders line) :
    stepApp st line = stepRev st line := by
  by_cases hs : startsChar '【' line = true
  · obtain ⟨hh, hne, hfree⟩ := h hs
    obtain ⟨mid, hline, hmid⟩ := headerLine_decomp line hh
    rw [hmid] at hne hfree
    have hrev : revHeaderOf line = some mid := by
      rw [hline, revHeaderOf, if_pos rfl]
      simpa using scanClose_on_free mid [] [] hfree (Or.inr hne)
    rw [stepApp, if_pos hh, stepRev, hrev, hmid]
  · have hs' : startsChar '【' line = false := by
      cases hb : startsChar '【' line
      · rfl
      · exact absurd hb hs
    have hh : headerLine line = false := by
      rw [headerLine, hs']
      rfl
    rw [stepApp, if_neg (by simp [hh]), stepRev, revHeaderOf_not_bracket hs']

lemma foldl_app_rev_eq :
    ∀ (lines : List (List Char)) (st : List Char × List Review),
      (∀ l ∈ lines, startsChar '【' l = true → WellHeaders l) →
      lines.foldl stepApp st = lines.foldl stepRev st := by
  intro lines
  induction lines with
  | nil => intro st _; rfl
  | cons l ls ih =>
      intro st h
      rw [List.foldl_cons, List.foldl_cons, stepApp_eq_stepRev st l (h l (by simp)),
          ih (stepRev st l) (fun l' hl' => h l' (by simp [hl']))]

/-- C10 counterexample: on the input "- a：b" (an issue line with no
preceding header) parse_review_response and _parse_review_response emit
nothing, but _parse_text_response (scenario_review_tool.py) — which has
no current-category guard — emits a record with an empty category, so
the three implementations do not produce the same sequence. -/
theorem C10_counterexample :
    parse_review_response (toL "- a：b") = [] ∧
      reviewer_parse_review_response (toL "- a：b") = [] ∧
      scenario_parse_text_response (toL "- a：b") = [⟨[], toL "a", toL "b", []⟩] ∧
      scenario_parse_text_response (toL "- a：b") ≠ parse_review_response (toL "- a：b") :=
  ⟨rfl, rfl, rfl, by decide⟩

/-- C10 (amended): the three parsers do not agree in general; what holds
is that parse_review_response (app.py) and _parse_review_response
(reviewer.py) emit the same record sequence on every input whose
【-initial lines are all fully bracket-delimited headers (ending in 】
with a non-empty 】-free interior) — their issue-line grammars coincide
and only the header tests differ; _parse_text_response differs even on
such inputs, as the counterexample shows. -/
theorem C10_app_reviewer_agree :
    ∀ s : List Char,
      (∀ l ∈ splitLines s, startsChar '【' l = true → WellHeaders l) →
      parse_review_response s = reviewer_parse_review_response s := by
  intro s h
  rw [parse_review_response, reviewer_parse_review_response,
      foldl_app_rev_eq (splitLines s) ([], []) h]

theorem C10_app_reviewer_agree_witness :
    parse_review_response (toL "【A】\n- a：b→c") =
      reviewer_parse_review_response (toL "【A】\n- a：b→c") :=
  C10_app_reviewer_agree (toL "【A】\n- a：b→c") (by decide)

lemma sumCounts_cons (p : List Char × Nat) (l : List (List Char × Nat)) :
    sumCounts (p :: l) = p.2 + sumCounts l := by
  simp [sumCounts]

lemma keys_map_inc (l : List (List Char × Nat)) (cat : List Char) :
    (l.map (fun p => if p.1 = cat then (p.1, p.2 + 1) else p)).map Prod.fst =
      l.map Prod.fst := by
  induction l with
  | nil => rfl
  | cons p rest ih =>
      by_cases hp : p.1 = cat
      · simp only [List.map_cons, if_pos hp, ih]
      · simp only [List.map_cons, if_neg hp, ih]

lemma map_inc_id (l : List (List Char × Nat)) (cat : List Char)
    (h : cat ∉ l.map Prod.fst) :
    l.map (fun p => if p.1 = cat then (p.1, p.2 + 1) else p) = l := by
  induction l with
  | nil => rfl
  | cons p rest ih =>
      simp only [List.map_cons, List.mem_cons, not_or] at h
      rw [List.map_cons, if_neg (fun hh => h.1 hh.symm), ih h.2]

lemma map_inc_sum (l : List (List Char × Nat)) (cat : List Char) :
    (l.map Prod.fst).Nodup → cat ∈ l.map Prod.fst →
    sumCounts (l.map (fun p => if p.1 = cat then (p.1, p.2 + 1) else p)) =
      sumCounts l + 1 := by
  induction l with
  | nil => intro _ h; simp at h
  | cons p rest ih =>
      intro hnd hmem
      rw [List.map_cons, List.nodup_cons] at hnd
      by_cases hp : p.1 = cat
      · rw [List.map_cons, if_pos hp, sumCounts_cons, sumCounts_cons,
            map_inc_id rest cat (hp ▸ hnd.1)]
        omega
      · have hmem' : cat ∈ rest.map Prod.fst := by
          rw [List.map_cons] at hmem
          rcases List.mem_cons.mp hmem with h | h
          · exact absurd h.symm hp
          · exact h
        rw [List.map_cons, if_neg hp, sumCounts_cons, sumCounts_cons,
            ih hnd.2 hmem']
        omega

lemma any_key_iff (l : List (List Char × Nat)) (cat : List Char) :
    l.any (fun p => p.1 = cat) = true ↔ cat ∈ l.map Prod.fst := by
  simp [List.any_eq_true, List.mem_map]

lemma bumpCat_sum (summ : List (List Char × Nat)) (cat : List Char)
    (h : (summ.map Prod.fst).Nodup) :
    sumCounts (bumpCat summ cat) = sumCounts summ + 1 := by
  by_cases ha : summ.any (fun p => p.1 = cat) = true
  · rw [bumpCat, if_pos ha]
    exact map_inc_sum summ cat h ((any_key_iff summ cat).mp ha)
  · rw [bumpCat, if_neg ha]
    simp [sumCounts]

lemma bumpCat_keys (summ : List (List Char × Nat)) (cat c : List Char) :
    c ∈ (bumpCat summ cat).map Prod.fst ↔ c ∈ summ.map Prod.fst ∨ c = cat := by
  by_cases ha : summ.any (fun p => p.1 = cat) = true
  · rw [bumpCat, if_pos ha, keys_map_inc]
    have hc : cat ∈ summ.map Prod.fst := (any_key_iff summ cat).mp ha
    constructor
    · exact Or.inl
    · rintro (h | h)
      · exact h
      · exact h ▸ hc
  · rw [bumpCat, if_neg ha]
    simp [List.map_append]

lemma bumpCat_nodup (summ : List (List Char × Nat)) (cat : List Char)
    (h : (summ.map Prod.fst).Nodup) :
    ((bumpCat summ cat).map Prod.fst).Nodup := by
  by_cases ha : summ.any (fun p => p.1 = cat) = true
  · rw [bumpCat, if_pos ha, keys_map_inc]
    exact h
  · rw [bumpCat, if_neg ha, List.map_append]
    simp only [List.map_cons, List.map_nil]
    have hc : cat ∉ summ.map Prod.fst := fun hm => ha ((any_key_iff summ cat).mpr hm)
    refine List.Nodup.append h (List.nodup_singleton cat) ?_
    intro a h1 h2
    rw [List.mem_singleton] at h2
    exact hc (h2 ▸ h1)

lemma summary_fold :
    ∀ (issues : List Review) (summ : List (List Char × Nat)),
      (summ.map Prod.fst).Nodup →
      sumCounts (issues.foldl (fun acc r => bumpCat acc r.category) summ) =
          sumCounts summ + issues.length ∧
      (∀ c, c ∈ (issues.foldl (fun acc r => bumpCat acc r.category) summ).map Prod.fst ↔
          c ∈ summ.map Prod.fst ∨ c ∈ issues.map Review.category) ∧
      ((issues.foldl (fun acc r => bumpCat acc r.category) summ).map Prod.fst).Nodup := by
  intro issues
  induction issues with
  | nil =>
      intro summ h
      refine ⟨by simp, fun c => by simp, h⟩
  | cons r rs ih =>
      intro summ h
      obtain ⟨s1, s2, s3⟩ := ih (bumpCat summ r.category) (bumpCat_nodup summ r.category h)
      refine ⟨?_, ?_, s3⟩
      · rw [List.foldl_cons, s1, bumpCat_sum summ r.category h, List.length_cons]
        omega
      · intro c
        rw [List.foldl_cons, s2 c, bumpCat_keys summ r.category c]
        simp only [List.map_cons, List.mem_cons]
        tauto

/-- C9: for every issue sequence, the category counts produced by
extract_issues_summary sum to the length of the sequence, and its key
set is exactly the set of category values occurring in the sequence
(app.py's category_counts loop performs the identical computation). -/
theorem C9_aggregator_sum_and_keys :
    ∀ issues : List Review,
      sumCounts (extract_issues_summary issues) = issues.length ∧
      ∀ c : List Char,
        c ∈ (extract_issues_summary issues).map Prod.fst ↔
          c ∈ issues.map Review.category := by
  intro issues
  obtain ⟨s1, s2, _⟩ := summary_fold issues [] (by simp)
  refine ⟨?_, fun c => ?_⟩
  · show sumCounts (issues.foldl (fun acc r => bumpCat acc r.category) []) = issues.length
    rw [s1]
    simp [sumCounts]
  · show c ∈ (issues.foldl (fun acc r => bumpCat acc r.category) []).map Prod.fst ↔ _
    rw [s2 c]
    simp

end PlotChecker
